import Mathlib

/-!
Verification development for the go-bencode repository (package `bencode`,
file `src/bencode/bencode.go`).

The decoder, encoder and coercion engine are shallowly embedded over byte
lists (`List Nat`, each entry a byte value).  Go `string` values are byte
sequences, so they are modelled as `List Nat` as well.  Go `int64` is
modelled as `Int` together with explicit range side conditions
(`-2^63 ≤ n < 2^63`) where the source relies on 64-bit arithmetic.

Byte constants used throughout: 'i' = 105, 'l' = 108, 'd' = 100,
'e' = 101, ':' = 58, '-' = 45, '0' = 48, '9' = 57.
-/

namespace Benc

/-- Generic Value: the decode result universe of the package
(doc comment of bencode.go: byte string -> string, integer -> int64,
list -> []interface, dictionary -> map[string]interface).  A decoded Go map
is modelled as an association list in key-first-insertion order. -/
inductive Bval where
  | str : List Nat → Bval
  | int : Int → Bval
  | list : List Bval → Bval
  | dict : List (List Nat × Bval) → Bval

/-- Token (bencode.go `Token`): a `Delim` byte for `l`, `d`, `e`, an
int64, or a string. -/
inductive Tok where
  | delim : Nat → Tok
  | int : Int → Tok
  | str : List Nat → Tok
deriving DecidableEq

/-- Errors raised by the decode engine, carrying the same data as the
`fmt.Errorf` messages in the source (byte values and `Tell()` offsets).
`eof` is `io.EOF`; `listWrap`/`dictWrap` are the `error parsing list`
and `error parsing dict` wrappers added by `Decoder.Decode`;
`outOfFuel` is an artefact of the fuelled embedding of the mutually
recursive parser and never occurs for the fuel used by `DecodeBytes`. -/
inductive DErr where
  | eof
  | unexpectedByte : Nat → Nat → DErr
  | unexpectedIntByte : Nat → Nat → DErr
  | parseIntErr
  | negStringLength : Nat → DErr
  | shortRead
  | oddDict : Nat → DErr
  | badDictKey : Nat → DErr
  | dictIndexPanic
  | unrecognizedToken : Nat → DErr
  | listWrap : DErr → DErr
  | dictWrap : DErr → DErr
  | outOfFuel
deriving DecidableEq

/-- Reader state: the `breader` of the source, i.e. the unread bytes plus
the position counter returned by `Tell()`. -/
structure DecSt where
  rest : List Nat
  pos : Nat
deriving DecidableEq

/-! ### Decimal digits

`natDecA`/`natDec`/`intDec` model the `%d` formatting used by the encoder
(`fmt.Fprintf(enc.w, "i%de", v)`) and by `strconv.FormatInt(x, 10)`:
most significant digit first, a leading 45 ('-') for negative values.
`natDecA` carries fuel to stay structurally recursive; fuel `n` is always
enough for the value `n`. -/

def natDecA : Nat → Nat → List Nat → List Nat
  | 0, _, acc => acc
  | f + 1, n, acc => if n = 0 then acc else natDecA f (n / 10) ((n % 10 + 48) :: acc)

def natDec (n : Nat) : List Nat :=
  if n = 0 then [48] else natDecA n n []

def intDec (n : Int) : List Nat :=
  if n < 0 then 45 :: natDec n.natAbs else natDec n.natAbs

/-- Numeric value of a most-significant-first digit list (digit bytes). -/
def digitsVal : List Nat → Nat
  | [] => 0
  | d :: ds => (d - 48) * 10 ^ ds.length + digitsVal ds

def isDigit (b : Nat) : Prop := 48 ≤ b ∧ b ≤ 57

instance (b : Nat) : Decidable (isDigit b) := by unfold isDigit; infer_instance

/-- Value of an all-digit, nonempty byte list, `none` otherwise.  This is the
`ParseUint` digit scan inside `strconv.ParseInt`. -/
def digitsVal? (ds : List Nat) : Option Nat :=
  if ds ≠ [] ∧ ∀ d ∈ ds, isDigit d then some (digitsVal ds) else none

instance (ds : List Nat) : Decidable (ds ≠ [] ∧ ∀ d ∈ ds, isDigit d) := by
  infer_instance

/-- Model of `strconv.ParseInt(string(digits), 10, 64)` on the byte lists
that `get_int` can produce (digits and 45 ('-') only; the scanner never
lets any other byte through).  A leading '-' negates; any interior '-' is
a syntax error because it is not a digit; the int64 range bounds of the Go
function are checked explicitly. -/
def parseInt64 : List Nat → Except Unit Int
  | [] => .error ()
  | d :: rest =>
    if d = 45 then
      match digitsVal? rest with
      | none => .error ()
      | some v => if v ≤ 2 ^ 63 then .ok (-(v : Int)) else .error ()
    else
      match digitsVal? (d :: rest) with
      | none => .error ()
      | some v => if v < 2 ^ 63 then .ok (v : Int) else .error ()

/-! ### Token scanner (`Decoder.get_int`, `Decoder.get_string`,
`Decoder.Token`) -/

/-- Loop body of `Decoder.get_int`: read bytes one at a time; a digit or
'-' is accumulated; the terminator byte ends the scan; anything else is a
syntax error at the offset just past the offending byte; end of input is
`io.EOF`.  Returns the accumulated digits and the reader state. -/
def get_int_go (endB : Nat) : List Nat → Nat → List Nat →
    (Except DErr (List Nat)) × DecSt
  | [], pos, _ => (.error .eof, ⟨[], pos⟩)
  | b :: rest, pos, digits =>
    if isDigit b ∨ b = 45 then get_int_go endB rest (pos + 1) (digits ++ [b])
    else if b = endB then (.ok digits, ⟨rest, pos + 1⟩)
    else (.error (.unexpectedIntByte b (pos + 1)), ⟨rest, pos + 1⟩)

/-- `Decoder.get_int`: scan digits up to `endB`, then `strconv.ParseInt`. -/
def get_int (endB : Nat) (st : DecSt) : (Except DErr Int) × DecSt :=
  match get_int_go endB st.rest st.pos [] with
  | (.error e, st') => (.error e, st')
  | (.ok ds, st') =>
    match parseInt64 ds with
    | .ok n => (.ok n, st')
    | .error _ => (.error .parseIntErr, st')

/-- The read loop of `Decoder.get_string`: collect exactly `n` bytes,
reporting `short read` if the input ends first (the loop keeps reading,
advancing the position, until EOF). -/
def read_exact (n : Nat) (st : DecSt) : (Except DErr (List Nat)) × DecSt :=
  if n ≤ st.rest.length then (.ok (st.rest.take n), ⟨st.rest.drop n, st.pos + n⟩)
  else (.error .shortRead, ⟨[], st.pos + st.rest.length⟩)

/-- `Decoder.get_string`: decimal length up to ':', reject a negative
length, then read exactly that many bytes. -/
def get_string (st : DecSt) : (Except DErr (List Nat)) × DecSt :=
  match get_int 58 st with
  | (.error e, st') => (.error e, st')
  | (.ok size64, st') =>
    if size64 < 0 then (.error (.negStringLength st'.pos), st')
    else read_exact size64.toNat st'

/-- `Decoder.Token`: read one byte and dispatch on it; a digit is pushed
back (`UnreadByte`) before `get_string` re-reads it, modelled by running
`get_string` on the original state.  End of input on the first byte is
`io.EOF`. -/
def Token (st : DecSt) : (Except DErr Tok) × DecSt :=
  match st.rest with
  | [] => (.error .eof, st)
  | b :: rest =>
    if b = 105 then
      match get_int 101 ⟨rest, st.pos + 1⟩ with
      | (.ok n, st') => (.ok (.int n), st')
      | (.error e, st') => (.error e, st')
    else if b = 108 then (.ok (.delim 108), ⟨rest, st.pos + 1⟩)
    else if b = 100 then (.ok (.delim 100), ⟨rest, st.pos + 1⟩)
    else if b = 101 then (.ok (.delim 101), ⟨rest, st.pos + 1⟩)
    else if isDigit b then
      match get_string st with
      | (.ok s, st') => (.ok (.str s), st')
      | (.error e, st') => (.error e, st')
    else (.error (.unexpectedByte b (st.pos + 1)), ⟨rest, st.pos + 1⟩)

/-! ### Tree parser (`Decoder.parse_list`, `Decoder.parse_dict`,
`Decoder.Decode`) -/

/-- Go map content as an association list: assignment `d[k] = v`
overwrites in place, a fresh key is appended. -/
def mapInsert {α : Type} (k : List Nat) (v : α) :
    List (List Nat × α) → List (List Nat × α)
  | [] => [(k, v)]
  | (k', v') :: rest =>
    if k = k' then (k, v) :: rest else (k', v') :: mapInsert k v rest

/-- First-match lookup in the association-list model of a Go map. -/
def alookup {α : Type} : List (List Nat × α) → List Nat → Option α
  | [], _ => none
  | (k', v) :: rest, k => if k = k' then some v else alookup rest k

/-- Building a Go map by inserting a list of pairs in order. -/
def mapFromList {α : Type} (ps : List (List Nat × α)) : List (List Nat × α) :=
  ps.foldl (fun m kv => mapInsert kv.1 kv.2 m) []

/-- The pairing loop at the end of `Decoder.parse_dict`: take `l[0]`,
require it to be a string key (error at the current offset otherwise),
then bind it to `l[1]`, later occurrences of the same key overwriting
earlier ones.  A trailing unpaired string key would index out of range in
Go; this is unreachable behind the even-length check. -/
def dict_fold (pos : Nat) : List (List Nat × Bval) → List Bval →
    Except DErr (List (List Nat × Bval))
  | m, [] => .ok m
  | m, .str k :: rest =>
    match rest with
    | v :: rest' => dict_fold pos (mapInsert k v m) rest'
    | [] => .error .dictIndexPanic
  | _, _ :: _ => .error (.badDictKey pos)

/-- `Decoder.parse_list`, fuelled.  Faithful to the source loop
`for token, err := dec.Token(); err == nil; token, err = dec.Token()`:
when `Token` returns an error the loop exits and the collected list is
returned with a nil error; only errors from nested collections (and the
dictionary checks) propagate.  The `d` branch inlines `parse_dict`
(even-length check at the offset after the flat list, then the pairing
loop) so that the mutual recursion is structural in the fuel. -/
def parse_list_go : Nat → List Bval → DecSt → Except DErr (List Bval × DecSt)
  | 0, _, _ => .error .outOfFuel
  | fuel + 1, acc, st =>
    match Token st with
    | (.error _, st') => .ok (acc, st')
    | (.ok t, st') =>
      match t with
      | .delim c =>
        if c = 108 then
          match parse_list_go fuel [] st' with
          | .error e => .error e
          | .ok (l', st'') => parse_list_go fuel (acc ++ [Bval.list l']) st''
        else if c = 100 then
          match parse_list_go fuel [] st' with
          | .error e => .error e
          | .ok (l', st'') =>
            if l'.length % 2 ≠ 0 then .error (.oddDict st''.pos)
            else
              match dict_fold st''.pos [] l' with
              | .error e => .error e
              | .ok m => parse_list_go fuel (acc ++ [Bval.dict m]) st''
        else if c = 101 then .ok (acc, st')
        else .error (.unrecognizedToken st'.pos)
      | .int n => parse_list_go fuel (acc ++ [Bval.int n]) st'
      | .str s => parse_list_go fuel (acc ++ [Bval.str s]) st'

/-- `Decoder.parse_list` entry point. -/
def parse_list (fuel : Nat) (st : DecSt) : Except DErr (List Bval × DecSt) :=
  parse_list_go fuel [] st

/-- `Decoder.parse_dict`: collect a flat list, reject an odd element count
at the current offset, then pair up the elements. -/
def parse_dict (fuel : Nat) (st : DecSt) :
    Except DErr (List (List Nat × Bval) × DecSt) :=
  match parse_list fuel st with
  | .error e => .error e
  | .ok (l, st') =>
    if l.length % 2 ≠ 0 then .error (.oddDict st'.pos)
    else
      match dict_fold st'.pos [] l with
      | .error e => .error e
      | .ok m => .ok (m, st')

/-- `Decoder.Decode`: one token; `l`/`d` recurse into the collectors,
wrapping their errors; the `Delim` default branch (an unmatched `e`)
falls through to `return nil, nil`; a scalar token is the value. -/
def decoderDecode (fuel : Nat) (st : DecSt) : Except DErr (Option Bval) :=
  match Token st with
  | (.error e, _) => .error e
  | (.ok t, _st') =>
    match t with
    | .delim c =>
      if c = 108 then
        match parse_list fuel _st' with
        | .error e => .error (.listWrap e)
        | .ok (l, _) => .ok (some (.list l))
      else if c = 100 then
        match parse_dict fuel _st' with
        | .error e => .error (.dictWrap e)
        | .ok (d, _) => .ok (some (.dict d))
      else .ok none
    | .int n => .ok (some (.int n))
    | .str s => .ok (some (.str s))

/-- Top-level `Decode` (and `DecodeString`): run the decoder on the whole
byte sequence and turn a top-level `io.EOF` into a nil result with no
error.  The fuel `bs.length + 1` is always sufficient: every parser loop
iteration consumes at least one byte. -/
def DecodeBytes (bs : List Nat) : Except DErr (Option Bval) :=
  match decoderDecode (bs.length + 1) ⟨bs, 0⟩ with
  | .error .eof => .ok none
  | r => r

/-! ### Canonical encoder (`Encoder.Encode`, `Encoder.encode_map`,
`Encoder.encode_slice`)

Restricted to the Generic Value universe, `Encoder.Encode` is total: the
string and integer cases write unconditionally and the slice/map cases
only propagate errors of nested calls, so no error is ever produced (the
`invalid data type` default branch is unreachable for these kinds).  A
wider input universe with reachable error branches is modelled separately
below (`GoVal`) for the key-handling claim about `encode_map`. -/

/-- Go string comparison (`sort.Strings` uses `<` on strings):
lexicographic on raw bytes, a prefix sorting before its extensions. -/
def bytesLe : List Nat → List Nat → Bool
  | [], _ => true
  | _ :: _, [] => false
  | a :: as, b :: bs => if a < b then true else if b < a then false else bytesLe as bs

def keyLe (a b : List Nat) : Prop := bytesLe a b = true

instance : DecidableRel keyLe := fun a b => by unfold keyLe; infer_instance

/-- Wire form of a byte string: `<decimal-length>:<raw-bytes>`
(`fmt.Fprintf(enc.w, "%d:%s", len(s), s)`). -/
def encStringB (s : List Nat) : List Nat := natDec s.length ++ 58 :: s

/-- Emission loop of `encode_map`: for each (sorted) key, encode the key
and then `new_map[k]` (here: the pre-encoded value looked up in the
association-list model of `new_map`; the default is unreachable because
every sorted key is a key of `new_map`). -/
def emitDict (nm : List (List Nat × List Nat)) : List (List Nat) → List Nat
  | [] => []
  | k :: ks => encStringB k ++ (alookup nm k).getD [] ++ emitDict nm ks

mutual
/-- `Encoder.Encode` on the Generic Value universe.  Integers print as
`i<decimal>e`, strings as length-prefixed bytes, slices as `l...e`, and a
map via `encode_map`: stringify the keys (identity for string keys),
build `new_map`, sort the keys ascending (`sort.Strings`), then emit each
key and its value in sorted order between `d` and `e`.  Values are
encoded once (`encPairs`) and emitted by key lookup, which agrees with
the source because `Encode` is a pure function of the value. -/
def encV : Bval → List Nat
  | .str s => encStringB s
  | .int n => 105 :: intDec n ++ [101]
  | .list vs => 108 :: encList vs ++ [101]
  | .dict ps =>
    100 :: emitDict (mapFromList (encPairs ps))
      (List.insertionSort keyLe ((encPairs ps).map Prod.fst)) ++ [101]

/-- Element loop of `Encoder.encode_slice`. -/
def encList : List Bval → List Nat
  | [] => []
  | v :: vs => encV v ++ encList vs

/-- Key/encoded-value pairs of a dictionary, in population order. -/
def encPairs : List (List Nat × Bval) → List (List Nat × List Nat)
  | [] => []
  | (k, v) :: ps => (k, encV v) :: encPairs ps
end

mutual
/-- Canonical form of a Generic Value: dictionaries are rewritten into
ascending key order (values canonicalised recursively, bound by
last-occurrence lookup exactly as a decode of the canonical encoding
produces them); strings, integers and list order are untouched. -/
def canon : Bval → Bval
  | .str s => .str s
  | .int n => .int n
  | .list vs => .list (canonList vs)
  | .dict ps =>
    .dict ((List.insertionSort keyLe ((canonPairs ps).map Prod.fst)).map
      (fun k => (k, (alookup (mapFromList (canonPairs ps)) k).getD (.int 0))))

def canonList : List Bval → List Bval
  | [] => []
  | v :: vs => canon v :: canonList vs

def canonPairs : List (List Nat × Bval) → List (List Nat × Bval)
  | [] => []
  | (k, v) :: ps => (k, canon v) :: canonPairs ps
end

/-- Well-formedness of a byte string of the model: a Go string has
byte entries and an int64 length. -/
def strWF (s : List Nat) : Prop := s.length < 2 ^ 63 ∧ ∀ b ∈ s, b < 256

mutual
/-- Representability in the Generic Value model: integers are int64,
strings are Go strings, dictionary keys are Go strings and unique
(a decoded `map[string]interface` cannot hold duplicates). -/
def BvalWF : Bval → Prop
  | .str s => strWF s
  | .int n => -(2 ^ 63) ≤ n ∧ n < 2 ^ 63
  | .list vs => BvalWFL vs
  | .dict ps => (ps.map Prod.fst).Nodup ∧ BvalWFP ps

def BvalWFL : List Bval → Prop
  | [] => True
  | v :: vs => BvalWF v ∧ BvalWFL vs

def BvalWFP : List (List Nat × Bval) → Prop
  | [] => True
  | (k, v) :: ps => strWF k ∧ BvalWF v ∧ BvalWFP ps
end

/-- Flat key/value token sequence of a dictionary body, as collected by
`parse_list` before `parse_dict` pairs it up. -/
def interleave : List (List Nat × Bval) → List Bval
  | [] => []
  | (k, v) :: ps => .str k :: v :: interleave ps

/-- The key/value pairs of a dictionary in the order `encode_map` emits
them: keys sorted ascending, each bound to its surviving (`new_map`)
value.  The lookup default is unreachable for keys of the mapping. -/
def sortedPairs (ps : List (List Nat × Bval)) : List (List Nat × Bval) :=
  (List.insertionSort keyLe (ps.map Prod.fst)).map
    (fun k => (k, (alookup (mapFromList ps) k).getD (.int 0)))

/-! ### Wider encoder universe for the key-handling behaviour of
`encode_map`

`Encoder.Encode` dispatches on the runtime kind; kinds without a wire
mapping (such as `bool`) hit the default branch and raise
`invalid data type for encoding`.  `encode_map` never inspects the key
type: every key is stringified with `fmt.Sprintf("%s", k)` and the
resulting string is used as the dictionary key.  `GoVal` models enough of
that universe to make the error branch reachable (through values) while
keys may be strings or ints. -/

/-- Map keys of a non-trivial key universe: strings and ints. -/
inductive GoKey where
  | kstr : List Nat → GoKey
  | kint : Int → GoKey
deriving DecidableEq

/-- `fmt.Sprintf("%s", k)` on a `reflect.Value` key: a string formats
verbatim; an int has no String method and `%s` produces
`%!s(int=<decimal>)` (bytes 37 33 115 40 105 110 116 61 ... 41). -/
def goRender : GoKey → List Nat
  | .kstr s => s
  | .kint n => [37, 33, 115, 40, 105, 110, 116, 61] ++ intDec n ++ [41]

/-- Encoder error: the `invalid data type for encoding` default branch. -/
inductive EncErr where
  | unsupported
deriving DecidableEq

/-- Emission loop of `encode_map` over the wider universe: for each
sorted key emit the key (a string, which always encodes) and then the
value stored in `new_map`, propagating a value-encoding error.  Values
are pre-encoded when `new_map` is built, which is faithful because Go
only ever encodes `new_map[k]`, i.e. the surviving entry.  The lookup
default is unreachable: every sorted key is a key of `new_map`. -/
def encGoDict (nm : List (List Nat × Except EncErr (List Nat))) :
    List (List Nat) → Except EncErr (List Nat)
  | [] => .ok []
  | k :: ks =>
    match (alookup nm k).getD (.error .unsupported) with
    | .error e => .error e
    | .ok vb =>
      match encGoDict nm ks with
      | .error e => .error e
      | .ok rest => .ok (encStringB k ++ vb ++ rest)

/-- Values accepted by the wider encoder model: strings, ints, an
unsupported kind (`bool`), slices, and maps with `GoKey` keys. -/
inductive GoVal where
  | gstr : List Nat → GoVal
  | gint : Int → GoVal
  | gbool : Bool → GoVal
  | glist : List GoVal → GoVal
  | gmap : List (GoKey × GoVal) → GoVal

mutual
/-- `Encoder.Encode` over the wider universe `GoVal`.  `bool` has no case
in the source switch and falls through to the
`invalid data type for encoding` error.  A map goes through
`encode_map`: stringify every key with `%s`, build `new_map`, sort the
stringified keys, then emit. -/
def encGo : GoVal → Except EncErr (List Nat)
  | .gstr s => .ok (encStringB s)
  | .gint n => .ok (105 :: intDec n ++ [101])
  | .gbool _ => .error .unsupported
  | .glist vs =>
    match encGoList vs with
    | .error e => .error e
    | .ok body => .ok (108 :: body ++ [101])
  | .gmap ps =>
    match encGoDict (mapFromList (encGoPairs ps))
        (List.insertionSort keyLe ((encGoPairs ps).map Prod.fst)) with
    | .error e => .error e
    | .ok body => .ok (100 :: body ++ [101])

/-- Element loop of `encode_slice` with error propagation. -/
def encGoList : List GoVal → Except EncErr (List Nat)
  | [] => .ok []
  | v :: vs =>
    match encGo v with
    | .error e => .error e
    | .ok bs =>
      match encGoList vs with
      | .error e => .error e
      | .ok rest => .ok (bs ++ rest)

/-- Stringified-key / encoded-value pairs of a map, population order. -/
def encGoPairs : List (GoKey × GoVal) → List (List Nat × Except EncErr (List Nat))
  | [] => []
  | (k, v) :: ps => (goRender k, encGo v) :: encGoPairs ps
end

/-! ### Coercion engine (`set_val_coerce_to_string`,
`set_val_coerce_slice`)

The coercion engine converts a decoded Generic Value into a caller-typed
destination.  Destination shapes and reflect-level runtime values are
modelled by `GoType`/`RVal`; `CRes` distinguishes a returned Go error
(`cerr`) from a runtime panic in the reflect package (`panik`). -/

inductive GoType where
  | tstring
  | tint64
  | tslice : GoType → GoType
  | tiface
deriving DecidableEq

inductive RVal where
  | rstr : List Nat → RVal
  | rint : Int → RVal
  | rslice : GoType → List RVal → RVal
  | riface : Bval → RVal

inductive CRes (α : Type) where
  | ok : α → CRes α
  | cerr : CRes α
  | panik : CRes α

def typeOfR : RVal → GoType
  | .rstr _ => .tstring
  | .rint _ => .tint64
  | .rslice t _ => .tslice t
  | .riface _ => .tiface

/-- `reflect.MakeSlice(t, 0, 0)`: panics unless `t` is a slice type;
otherwise yields the empty slice of that type. -/
def reflectMakeSlice (t : GoType) : CRes RVal :=
  match t with
  | .tslice e => .ok (.rslice e [])
  | _ => .panik

/-- `reflect.Value.Set`: panics unless the assigned value's type matches
the destination type. -/
def reflectSet (outTy : GoType) (v : RVal) : CRes RVal :=
  if typeOfR v = outTy then .ok v else .panik

/-- Element loop of `set_val_coerce_slice`: coerce each source element
into a fresh destination element and append; an element failure is
wrapped into the `couldn't coerce ... in slice` error. -/
def coerce_elems (coerceElem : GoType → Bval → CRes RVal) (elemTy : GoType) :
    List Bval → CRes (List RVal)
  | [] => .ok []
  | x :: xs =>
    match coerceElem elemTy x with
    | .ok r =>
      match coerce_elems coerceElem elemTy xs with
      | .ok rs => .ok (r :: rs)
      | .cerr => .cerr
      | .panik => .panik
    | .cerr => .cerr
    | .panik => .panik

/-- `set_val_coerce_slice`, parameterised by the recursive element
coercion (`set_val_coerce` in the source).  Faithful to the source order:
`in.Len()` is taken before the kind checks and panics for a source kind
without a length (an integer); a string source only coerces when it is a
`[]byte`, which a decoded Go string never is, so it falls to the error
return, as does a map source; an empty source list takes the
`in_length == 0` branch, which calls `reflect.MakeSlice` on
`out_elem_type` — the element type, not the slice type — and then `Set`s
the result into the destination; a nonempty source list of the same type
as the destination is copied, otherwise `reflect.MakeSlice(out_type)`
makes the destination slice and the elements are coerced one by one. -/
def set_val_coerce_slice (coerceElem : GoType → Bval → CRes RVal)
    (outTy : GoType) (v : Bval) : CRes RVal :=
  match v with
  | .int _ => .panik
  | .str _ => .cerr
  | .dict _ => .cerr
  | .list xs =>
    match outTy with
    | .tslice elemTy =>
      if xs.length = 0 then
        match reflectMakeSlice elemTy with
        | .ok s => reflectSet outTy s
        | .cerr => .cerr
        | .panik => .panik
      else
        if outTy = GoType.tslice .tiface then
          .ok (.rslice .tiface (xs.map RVal.riface))
        else
          match coerce_elems coerceElem elemTy xs with
          | .ok rs => reflectSet outTy (.rslice elemTy rs)
          | .cerr => .cerr
          | .panik => .panik
    | _ => .cerr

/-- `set_val_coerce_to_string` on the Generic Value source universe.  A
string source is copied; an integer source is a signed int64 and formats
with `strconv.FormatInt(in.Int(), 10)`; a decoded list is a
`[]interface` and never a `[]byte`, so it falls through to the
`don't know how to coerce` error, as does a map source.  (The unsigned
arm of the source, whose `FormatUint` result is discarded, is
unreachable from decoded values.) -/
def set_val_coerce_to_string : Bval → CRes (List Nat)
  | .str s => .ok s
  | .int n => .ok (intDec n)
  | .list _ => .cerr
  | .dict _ => .cerr

/-! ### Behaviour checks on the test vectors of the repository -/

example : DecodeBytes [105, 52, 50, 101] = .ok (some (.int 42)) := rfl
example : DecodeBytes [105, 45, 51, 101] = .ok (some (.int (-3))) := rfl
example : DecodeBytes [52, 58, 115, 112, 97, 109] = .ok (some (.str [115, 112, 97, 109])) := rfl
example : DecodeBytes [108, 101] = .ok (some (.list [])) := rfl
example : DecodeBytes [100, 101] = .ok (some (.dict [])) := rfl
example : DecodeBytes [48, 58] = .ok (some (.str [])) := rfl
example : DecodeBytes [] = .ok none := rfl
example : DecodeBytes [105, 51] = .ok none := rfl
example : DecodeBytes [108, 49, 58, 97] = .ok (some (.list [.str [97]])) := rfl

/-! ### Decimal digit lemmas -/

theorem digitsVal_append (xs ys : List Nat) :
    digitsVal (xs ++ ys) = digitsVal xs * 10 ^ ys.length + digitsVal ys := by
  induction xs with
  | nil => simp [digitsVal]
  | cons d xs ih =>
    simp only [List.cons_append, digitsVal, ih, List.length_append, List.append_eq]
    ring

theorem natDecA_val : ∀ f n acc, n ≤ f →
    digitsVal (natDecA f n acc) = n * 10 ^ acc.length + digitsVal acc := by
  intro f
  induction f with
  | zero => intro n acc h; interval_cases n; simp [natDecA]
  | succ f ih =>
    intro n acc h
    by_cases hn : n = 0
    · simp [natDecA, hn]
    · rw [natDecA, if_neg hn, ih (n / 10) _ (by omega)]
      have h10 : n % 10 + 48 - 48 = n % 10 := by omega
      simp only [digitsVal, List.length_cons, h10, pow_succ]
      conv_rhs => rw [← Nat.div_add_mod n 10]
      ring

theorem natDecA_digits : ∀ f n acc, (∀ d ∈ acc, isDigit d) →
    ∀ d ∈ natDecA f n acc, isDigit d := by
  intro f
  induction f with
  | zero => intro n acc h; simpa [natDecA] using h
  | succ f ih =>
    intro n acc h
    by_cases hn : n = 0
    · simpa [natDecA, hn] using h
    · rw [natDecA, if_neg hn]
      refine ih _ _ ?_
      intro d hd
      rcases List.mem_cons.mp hd with h1 | h2
      · subst h1; constructor <;> omega
      · exact h d h2

theorem natDecA_acc_ne_nil : ∀ f n acc, acc ≠ [] → natDecA f n acc ≠ [] := by
  intro f
  induction f with
  | zero => intro n acc h; simpa [natDecA] using h
  | succ f ih =>
    intro n acc h
    by_cases hn : n = 0
    · simpa [natDecA, hn] using h
    · rw [natDecA, if_neg hn]
      exact ih _ _ (by simp)

theorem natDec_digits (n : Nat) : ∀ d ∈ natDec n, isDigit d := by
  unfold natDec
  split
  · intro d hd; simp at hd; subst hd; constructor <;> omega
  · exact natDecA_digits n n [] (by simp)

theorem natDec_ne_nil (n : Nat) : natDec n ≠ [] := by
  unfold natDec
  split
  · simp
  · next hn =>
    rcases n with _ | m
    · omega
    · rw [natDecA, if_neg hn]
      exact natDecA_acc_ne_nil _ _ _ (by simp)

theorem digitsVal_natDec (n : Nat) : digitsVal (natDec n) = n := by
  unfold natDec
  split
  · simp [digitsVal]; omega
  · simpa [digitsVal] using natDecA_val n n [] le_rfl

theorem digitsValQ_natDec (n : Nat) : digitsVal? (natDec n) = some n := by
  unfold digitsVal?
  rw [if_pos ⟨natDec_ne_nil n, natDec_digits n⟩, digitsVal_natDec]

theorem natDec_head_ne_minus (n : Nat) :
    ∀ d ds, natDec n = d :: ds → d ≠ 45 ∧ isDigit d := by
  intro d ds h
  have hd : isDigit d := natDec_digits n d (by rw [h]; simp)
  exact ⟨by rcases hd with ⟨h1, h2⟩; omega, hd⟩

theorem parseInt64_natDec (n : Nat) (h : n < 2 ^ 63) :
    parseInt64 (natDec n) = .ok (n : Int) := by
  rcases hd : natDec n with _ | ⟨d, ds⟩
  · exact absurd hd (natDec_ne_nil n)
  · obtain ⟨h45, _⟩ := natDec_head_ne_minus n d ds hd
    rw [parseInt64, if_neg h45, ← hd, digitsValQ_natDec]
    simp [h]
    omega

theorem parseInt64_intDec (n : Int) (h1 : -(2 ^ 63) ≤ n) (h2 : n < 2 ^ 63) :
    parseInt64 (intDec n) = .ok n := by
  unfold intDec
  split
  · next hneg =>
    rw [parseInt64, if_pos rfl, digitsValQ_natDec]
    have hle : n.natAbs ≤ 2 ^ 63 := by omega
    simp only [hle, if_true]
    congr 1
    omega
  · next hpos =>
    rw [parseInt64_natDec n.natAbs (by omega)]
    congr 1
    omega

theorem intDec_digits (n : Int) : ∀ d ∈ intDec n, isDigit d ∨ d = 45 := by
  unfold intDec
  split
  · intro d hd
    rcases List.mem_cons.mp hd with h1 | h2
    · right; exact h1
    · left; exact natDec_digits _ d h2
  · intro d hd
    left; exact natDec_digits _ d hd

/-! ### Scanner lemmas -/

theorem get_int_go_spec (endB : Nat) (hend : ¬(isDigit endB ∨ endB = 45)) :
    ∀ ds : List Nat, (∀ d ∈ ds, isDigit d ∨ d = 45) → ∀ r p acc,
    get_int_go endB (ds ++ endB :: r) p acc =
      (.ok (acc ++ ds), ⟨r, p + ds.length + 1⟩) := by
  intro ds
  induction ds with
  | nil =>
    intro _ r p acc
    rw [List.nil_append, get_int_go, if_neg hend, if_pos rfl]
    simp
  | cons d ds ih =>
    intro h r p acc
    have hd : isDigit d ∨ d = 45 := h d (by simp)
    rw [List.cons_append, get_int_go, if_pos hd,
      ih (fun x hx => h x (by simp [hx])) r (p + 1) (acc ++ [d])]
    have h1 : acc ++ [d] ++ ds = acc ++ d :: ds := by simp
    have h2 : p + 1 + ds.length + 1 = p + (d :: ds).length + 1 := by
      simp; omega
    rw [h1, h2]

theorem get_int_spec (endB : Nat) (hend : ¬(isDigit endB ∨ endB = 45))
    (ds : List Nat) (hds : ∀ d ∈ ds, isDigit d ∨ d = 45) (n : Int)
    (hn : parseInt64 ds = .ok n) (r : List Nat) (p : Nat) :
    get_int endB ⟨ds ++ endB :: r, p⟩ = (.ok n, ⟨r, p + ds.length + 1⟩) := by
  unfold get_int
  rw [show (⟨ds ++ endB :: r, p⟩ : DecSt).rest = ds ++ endB :: r from rfl,
    show (⟨ds ++ endB :: r, p⟩ : DecSt).pos = p from rfl,
    get_int_go_spec endB hend ds hds r p [], List.nil_append]
  simp [hn]

theorem Token_int (n : Int) (h1 : -(2 ^ 63) ≤ n) (h2 : n < 2 ^ 63)
    (r : List Nat) (p : Nat) :
    Token ⟨105 :: (intDec n ++ 101 :: r), p⟩ =
      (.ok (.int n), ⟨r, p + (intDec n).length + 2⟩) := by
  simp only [Token, if_true]
  rw [get_int_spec 101 (by decide) (intDec n) (intDec_digits n) n
    (parseInt64_intDec n h1 h2) r (p + 1)]
  simp
  omega

theorem Token_str (s : List Nat) (hs : s.length < 2 ^ 63) (r : List Nat) (p : Nat) :
    Token ⟨encStringB s ++ r, p⟩ = (.ok (.str s), ⟨r, p + (encStringB s).length⟩) := by
  have hsplit : encStringB s ++ r = natDec s.length ++ 58 :: (s ++ r) := by
    unfold encStringB
    simp
  rcases hnd : natDec s.length with _ | ⟨d, ds⟩
  · exact absurd hnd (natDec_ne_nil _)
  have hdig : isDigit d := natDec_digits _ d (by rw [hnd]; simp)
  obtain ⟨hd1, hd2⟩ := hdig
  have hgs : get_string ⟨encStringB s ++ r, p⟩ =
      (.ok s, ⟨r, p + (encStringB s).length⟩) := by
    unfold get_string
    rw [hsplit, get_int_spec 58 (by decide) (natDec s.length)
      (fun x hx => Or.inl (natDec_digits _ x hx)) (s.length : Int)
      (parseInt64_natDec s.length hs) (s ++ r) p]
    simp only []
    rw [if_neg (by omega)]
    unfold read_exact
    rw [if_pos (by simp)]
    simp only [Int.toNat_ofNat, List.take_left, List.drop_left]
    have : p + (natDec s.length).length + 1 + s.length = p + (encStringB s).length := by
      unfold encStringB
      simp
      omega
    rw [this]
  rw [show (⟨encStringB s ++ r, p⟩ : DecSt) = ⟨d :: (ds ++ 58 :: (s ++ r)), p⟩ by
    rw [hsplit, hnd]; rfl]
  simp only [Token]
  rw [if_neg (by omega), if_neg (by omega), if_neg (by omega),
    if_neg (by omega), if_pos ⟨hd1, hd2⟩]
  rw [show (⟨d :: (ds ++ 58 :: (s ++ r)), p⟩ : DecSt) = ⟨encStringB s ++ r, p⟩ by
    rw [hsplit, hnd]; rfl]
  rw [hgs]

theorem Token_delim_l (r : List Nat) (p : Nat) :
    Token ⟨108 :: r, p⟩ = (.ok (.delim 108), ⟨r, p + 1⟩) := rfl

theorem Token_delim_d (r : List Nat) (p : Nat) :
    Token ⟨100 :: r, p⟩ = (.ok (.delim 100), ⟨r, p + 1⟩) := rfl

theorem Token_delim_e (r : List Nat) (p : Nat) :
    Token ⟨101 :: r, p⟩ = (.ok (.delim 101), ⟨r, p + 1⟩) := rfl

/-! ### Association-list (Go map model) lemmas -/

theorem alookup_append {α : Type} (m1 m2 : List (List Nat × α)) (k : List Nat) :
    alookup (m1 ++ m2) k = (alookup m1 k).orElse (fun _ => alookup m2 k) := by
  induction m1 with
  | nil => simp [alookup, Option.orElse]
  | cons p m1 ih =>
    obtain ⟨k', v⟩ := p
    by_cases h : k = k' <;> simp [alookup, h, ih, Option.orElse]

theorem alookup_mapInsert {α : Type} (k k' : List Nat) (v : α)
    (m : List (List Nat × α)) :
    alookup (mapInsert k v m) k' = if k' = k then some v else alookup m k' := by
  induction m with
  | nil => by_cases h : k' = k <;> simp [mapInsert, alookup, h]
  | cons p m ih =>
    obtain ⟨k0, v0⟩ := p
    by_cases h1 : k = k0
    · subst h1
      by_cases h2 : k' = k <;> simp [mapInsert, alookup, h2]
    · have step : mapInsert k v ((k0, v0) :: m) = (k0, v0) :: mapInsert k v m := by
        rw [mapInsert, if_neg h1]
      rw [step]
      by_cases h2 : k' = k0
      · subst h2
        have hk'k : ¬k' = k := fun h => h1 h.symm
        simp [alookup, hk'k]
      · simp [alookup, h2, ih]

theorem alookup_isSome_iff {α : Type} (m : List (List Nat × α)) (k : List Nat) :
    (alookup m k).isSome ↔ k ∈ m.map Prod.fst := by
  induction m with
  | nil => simp [alookup]
  | cons p m ih =>
    obtain ⟨k', v⟩ := p
    by_cases h : k = k' <;> simp [alookup, h, ih]

theorem alookup_eq_some_mem {α : Type} (m : List (List Nat × α)) (k : List Nat)
    (v : α) (h : alookup m k = some v) : (k, v) ∈ m := by
  induction m with
  | nil => simp [alookup] at h
  | cons p m ih =>
    obtain ⟨k', v'⟩ := p
    by_cases hk : k = k'
    · subst hk
      simp [alookup] at h
      simp [h]
    · simp [alookup, hk] at h
      simp [ih h]

theorem alookup_map_snd {α β : Type} (f : α → β) (m : List (List Nat × α))
    (k : List Nat) :
    alookup (m.map (fun p => (p.1, f p.2))) k = (alookup m k).map f := by
  induction m with
  | nil => simp [alookup]
  | cons p m ih =>
    obtain ⟨k', v⟩ := p
    by_cases h : k = k' <;> simp [alookup, h, ih]

theorem mapInsert_map_snd {α β : Type} (f : α → β) (k : List Nat) (v : α)
    (m : List (List Nat × α)) :
    mapInsert k (f v) (m.map (fun p => (p.1, f p.2))) =
      (mapInsert k v m).map (fun p => (p.1, f p.2)) := by
  induction m with
  | nil => simp [mapInsert]
  | cons p m ih =>
    obtain ⟨k', v'⟩ := p
    by_cases h : k = k' <;> simp [mapInsert, h, ih]

theorem mapFromList_map_snd {α β : Type} (f : α → β)
    (ps : List (List Nat × α)) :
    mapFromList (ps.map (fun p => (p.1, f p.2))) =
      (mapFromList ps).map (fun p => (p.1, f p.2)) := by
  unfold mapFromList
  suffices h : ∀ m : List (List Nat × α),
      (ps.map (fun p => (p.1, f p.2))).foldl (fun m kv => mapInsert kv.1 kv.2 m)
        (m.map (fun p => (p.1, f p.2))) =
      (ps.foldl (fun m kv => mapInsert kv.1 kv.2 m) m).map (fun p => (p.1, f p.2)) by
    simpa using h []
  induction ps with
  | nil => intro m; simp
  | cons p ps ih =>
    intro m
    obtain ⟨k, v⟩ := p
    simp only [List.map_cons, List.foldl_cons]
    rw [mapInsert_map_snd, ih]

theorem mapInsert_absent {α : Type} (k : List Nat) (v : α)
    (m : List (List Nat × α)) (h : k ∉ m.map Prod.fst) :
    mapInsert k v m = m ++ [(k, v)] := by
  induction m with
  | nil => simp [mapInsert]
  | cons p m ih =>
    obtain ⟨k', v'⟩ := p
    simp only [List.map_cons, List.mem_cons, not_or] at h
    rw [mapInsert, if_neg h.1, ih h.2]
    simp

theorem keys_mapInsert_absent {α : Type} (k : List Nat) (v : α)
    (m : List (List Nat × α)) (h : k ∉ m.map Prod.fst) :
    (mapInsert k v m).map Prod.fst = m.map Prod.fst ++ [k] := by
  rw [mapInsert_absent k v m h]
  simp

theorem mapFromList_nodup {α : Type} (ps : List (List Nat × α))
    (h : (ps.map Prod.fst).Nodup) : mapFromList ps = ps := by
  unfold mapFromList
  suffices hgen : ∀ m : List (List Nat × α),
      (ps.map Prod.fst).Nodup → (∀ k ∈ ps.map Prod.fst, k ∉ m.map Prod.fst) →
      ps.foldl (fun m kv => mapInsert kv.1 kv.2 m) m = m ++ ps by
    simpa using hgen [] h (by simp)
  clear h
  induction ps with
  | nil => intro m _ _; simp
  | cons p ps ih =>
    intro m hnd hdisj
    obtain ⟨k, v⟩ := p
    simp only [List.foldl_cons]
    simp only [List.map_cons, List.nodup_cons] at hnd
    have hkm : k ∉ m.map Prod.fst := hdisj k (by simp)
    rw [ih (mapInsert k v m) hnd.2 ?_]
    · rw [mapInsert_absent k v m hkm]
      simp
    · intro k' hk'
      rw [keys_mapInsert_absent k v m hkm]
      simp only [List.mem_append, List.mem_singleton, not_or]
      constructor
      · exact hdisj k' (by simp [hk'])
      · intro hkk
        subst hkk
        exact hnd.1 hk'

theorem alookup_foldl_insert {α : Type} : ∀ (ps m : List (List Nat × α))
    (k : List Nat),
    alookup (ps.foldl (fun m kv => mapInsert kv.1 kv.2 m) m) k =
      (alookup ps.reverse k).orElse (fun _ => alookup m k) := by
  intro ps
  induction ps with
  | nil => intro m k; simp [alookup, Option.orElse]
  | cons p ps ih =>
    intro m k
    obtain ⟨k0, v0⟩ := p
    simp only [List.foldl_cons, List.reverse_cons]
    rw [ih, alookup_append]
    by_cases h : k = k0
    · subst h
      rcases hl : alookup ps.reverse k with _ | v <;>
        simp [Option.orElse, alookup, alookup_mapInsert, hl]
    · rcases hl : alookup ps.reverse k with _ | v <;>
        simp [Option.orElse, alookup, alookup_mapInsert, hl, h]

/-- Last-occurrence lookup: what a sequence of Go map assignments binds. -/
theorem alookup_mapFromList {α : Type} (ps : List (List Nat × α)) (k : List Nat) :
    alookup (mapFromList ps) k = alookup ps.reverse k := by
  unfold mapFromList
  rw [alookup_foldl_insert]
  rcases hl : alookup ps.reverse k with _ | v <;> simp [Option.orElse, alookup, hl]

/-! ### Byte-wise ordering of keys -/

theorem bytesLe_total : ∀ a b : List Nat, bytesLe a b = true ∨ bytesLe b a = true := by
  intro a
  induction a with
  | nil => intro b; left; rfl
  | cons x as ih =>
    intro b
    cases b with
    | nil => right; rfl
    | cons y bs =>
      simp only [bytesLe]
      by_cases h1 : x < y
      · left; simp [h1]
      · by_cases h2 : y < x
        · right; simp [h2]
        · have hxy : x = y := by omega
          subst hxy
          simpa [h1, h2] using ih bs

theorem bytesLe_trans : ∀ a b c : List Nat,
    bytesLe a b = true → bytesLe b c = true → bytesLe a c = true := by
  intro a
  induction a with
  | nil => intro b c _ _; rfl
  | cons x as ih =>
    intro b c hab hbc
    cases b with
    | nil => simp [bytesLe] at hab
    | cons y bs =>
      cases c with
      | nil => simp [bytesLe] at hbc
      | cons z cs =>
        simp only [bytesLe] at hab hbc ⊢
        split_ifs at hab hbc ⊢ <;> try rfl
        all_goals try omega
        all_goals try simp_all
        exact ih bs cs hab hbc

theorem bytesLe_antisymm : ∀ a b : List Nat,
    bytesLe a b = true → bytesLe b a = true → a = b := by
  intro a
  induction a with
  | nil =>
    intro b _ hba
    cases b with
    | nil => rfl
    | cons y bs => simp [bytesLe] at hba
  | cons x as ih =>
    intro b hab hba
    cases b with
    | nil => simp [bytesLe] at hab
    | cons y bs =>
      simp only [bytesLe] at hab hba
      by_cases h1 : x < y
      · rw [if_neg (by omega), if_pos h1] at hba
        exact absurd hba (by simp)
      · by_cases h2 : y < x
        · rw [if_neg (by omega), if_pos h2] at hab
          exact absurd hab (by simp)
        · have hxy : x = y := by omega
          subst hxy
          rw [if_neg h1, if_neg h2] at hab
          rw [if_neg h2, if_neg h1] at hba
          rw [ih bs hab hba]

instance : IsTotal (List Nat) keyLe := ⟨fun a b => bytesLe_total a b⟩

instance : IsTrans (List Nat) keyLe := ⟨fun a b c => bytesLe_trans a b c⟩

instance : IsAntisymm (List Nat) keyLe := ⟨fun a b => bytesLe_antisymm a b⟩

/-- Sorting is determined by the multiset of keys: any two permuted key
lists sort to the same list. -/
theorem insertionSort_eq_of_perm (l l' : List (List Nat)) (h : l.Perm l') :
    List.insertionSort keyLe l = List.insertionSort keyLe l' := by
  refine List.eq_of_perm_of_sorted ?_ (List.sorted_insertionSort keyLe l)
    (List.sorted_insertionSort keyLe l')
  exact ((List.perm_insertionSort keyLe l).trans h).trans
    (List.perm_insertionSort keyLe l').symm

/-! ### Mutual-helper unfolding lemmas -/

theorem canonList_eq_map (vs : List Bval) : canonList vs = vs.map canon := by
  induction vs with
  | nil => rfl
  | cons v vs ih => rw [canonList, ih, List.map_cons]

theorem canonPairs_eq_map (ps : List (List Nat × Bval)) :
    canonPairs ps = ps.map (fun p => (p.1, canon p.2)) := by
  induction ps with
  | nil => rfl
  | cons p ps ih => obtain ⟨k, v⟩ := p; rw [canonPairs, ih, List.map_cons]

theorem encPairs_eq_map (ps : List (List Nat × Bval)) :
    encPairs ps = ps.map (fun p => (p.1, encV p.2)) := by
  induction ps with
  | nil => rfl
  | cons p ps ih => obtain ⟨k, v⟩ := p; rw [encPairs, ih, List.map_cons]

theorem encGoPairs_eq_map (ps : List (GoKey × GoVal)) :
    encGoPairs ps = ps.map (fun p => (goRender p.1, encGo p.2)) := by
  induction ps with
  | nil => rfl
  | cons p ps ih => obtain ⟨k, v⟩ := p; rw [encGoPairs, ih, List.map_cons]

theorem BvalWFL_iff (vs : List Bval) : BvalWFL vs ↔ ∀ v ∈ vs, BvalWF v := by
  induction vs with
  | nil => simp [BvalWFL]
  | cons v vs ih => simp [BvalWFL, ih]

theorem BvalWFP_mem (ps : List (List Nat × Bval)) (h : BvalWFP ps) :
    ∀ p ∈ ps, strWF p.1 ∧ BvalWF p.2 := by
  induction ps with
  | nil => simp
  | cons q ps ih =>
    obtain ⟨k, v⟩ := q
    rw [BvalWFP] at h
    intro p hp
    rcases List.mem_cons.mp hp with h1 | h2
    · subst h1; exact ⟨h.1, h.2.1⟩
    · exact ih h.2.2 p h2

theorem encV_length_pos (v : Bval) : 1 ≤ (encV v).length := by
  cases v with
  | str s =>
    rw [encV, encStringB]
    simp
    omega
  | int n => rw [encV]; simp
  | list vs => rw [encV]; simp
  | dict ps => rw [encV]; simp

/-! ### Parser collection lemmas -/

theorem interleave_length (qs : List (List Nat × Bval)) :
    (interleave qs).length = 2 * qs.length := by
  induction qs with
  | nil => rfl
  | cons p qs ih =>
    obtain ⟨k, v⟩ := p
    rw [interleave]
    simp [ih]
    omega

theorem canonList_interleave (qs : List (List Nat × Bval)) :
    canonList (interleave qs) = interleave (qs.map (fun p => (p.1, canon p.2))) := by
  induction qs with
  | nil => rfl
  | cons p qs ih =>
    obtain ⟨k, v⟩ := p
    rw [interleave, canonList, canonList, ih, List.map_cons, interleave, canon]

theorem dict_fold_interleave (pos : Nat) :
    ∀ (qs m : List (List Nat × Bval)),
    dict_fold pos m (interleave qs) =
      .ok (qs.foldl (fun m kv => mapInsert kv.1 kv.2 m) m) := by
  intro qs
  induction qs with
  | nil => intro m; rfl
  | cons p qs ih =>
    intro m
    obtain ⟨k, v⟩ := p
    rw [interleave, dict_fold]
    exact ih (mapInsert k v m)

theorem dict_fold_interleave_nil (pos : Nat) (qs : List (List Nat × Bval)) :
    dict_fold pos [] (interleave qs) = .ok (mapFromList qs) := by
  rw [dict_fold_interleave]
  rfl

theorem alookup_mapFromList_isSome {α : Type} (ps : List (List Nat × α))
    (k : List Nat) (h : k ∈ ps.map Prod.fst) :
    (alookup (mapFromList ps) k).isSome := by
  rw [alookup_mapFromList, alookup_isSome_iff]
  simpa using h

theorem emitDict_body (ps : List (List Nat × Bval)) :
    ∀ ks : List (List Nat), (∀ k ∈ ks, k ∈ ps.map Prod.fst) →
    emitDict (mapFromList (encPairs ps)) ks =
      encList (interleave (ks.map
        (fun k => (k, (alookup (mapFromList ps) k).getD (.int 0))))) := by
  intro ks
  induction ks with
  | nil => intro _; rfl
  | cons k ks ih =>
    intro h
    obtain ⟨v, hv⟩ := Option.isSome_iff_exists.mp
      (alookup_mapFromList_isSome ps k (h k (by simp)))
    have hlook : alookup (mapFromList (encPairs ps)) k = some (encV v) := by
      rw [encPairs_eq_map, mapFromList_map_snd, alookup_map_snd, hv]
      rfl
    rw [emitDict, List.map_cons, interleave, encList, encList, hlook, hv,
      ih (fun x hx => h x (by simp [hx]))]
    simp only [Option.getD_some]
    rw [show encV (.str k) = encStringB k from rfl]
    simp

theorem canon_dict_eq (ps : List (List Nat × Bval)) :
    canon (.dict ps) =
      .dict ((sortedPairs ps).map (fun p => (p.1, canon p.2))) := by
  rw [canon, sortedPairs, canonPairs_eq_map]
  have hkeys : (ps.map (fun p => (p.1, canon p.2))).map Prod.fst = ps.map Prod.fst := by
    simp
  rw [mapFromList_map_snd, hkeys]
  congr 1
  rw [List.map_map]
  refine List.map_congr_left ?_
  intro k _
  simp only [Function.comp_apply, alookup_map_snd]
  rcases alookup (mapFromList ps) k with _ | v
  · rfl
  · rfl

theorem encPairs_fst (ps : List (List Nat × Bval)) :
    (encPairs ps).map Prod.fst = ps.map Prod.fst := by
  rw [encPairs_eq_map]
  simp

theorem BvalWFL_interleave (qs : List (List Nat × Bval))
    (h : ∀ p ∈ qs, strWF p.1 ∧ BvalWF p.2) : BvalWFL (interleave qs) := by
  induction qs with
  | nil => rw [interleave]; trivial
  | cons p qs ih =>
    obtain ⟨k, v⟩ := p
    rw [interleave, BvalWFL, BvalWFL]
    refine ⟨?_, (h (k, v) (by simp)).2, ih (fun q hq => h q (by simp [hq]))⟩
    rw [BvalWF]
    exact (h (k, v) (by simp)).1

theorem sortedPairs_fst (ps : List (List Nat × Bval)) :
    (sortedPairs ps).map Prod.fst = List.insertionSort keyLe (ps.map Prod.fst) := by
  rw [sortedPairs, List.map_map]
  exact List.map_id _

theorem sortedPairs_wf (ps : List (List Nat × Bval))
    (hnd : (ps.map Prod.fst).Nodup) (hwf : BvalWFP ps) :
    ∀ p ∈ sortedPairs ps, strWF p.1 ∧ BvalWF p.2 := by
  intro p hp
  rw [sortedPairs, mapFromList_nodup ps hnd] at hp
  obtain ⟨k, hk, rfl⟩ := List.mem_map.mp hp
  have hkmem : k ∈ ps.map Prod.fst := (List.mem_insertionSort keyLe).mp hk
  obtain ⟨v, hv⟩ := Option.isSome_iff_exists.mp ((alookup_isSome_iff ps k).mpr hkmem)
  rw [hv]
  have := BvalWFP_mem ps hwf (k, v) (alookup_eq_some_mem ps k v hv)
  simpa using this

/-! ### Round trip of the encode/decode pair -/

theorem parse_enc_loop : ∀ n vs, (encList vs).length ≤ n → BvalWFL vs →
    ∀ fuel, (encList vs).length + 1 ≤ fuel →
    ∀ acc r p,
    parse_list_go fuel acc ⟨encList vs ++ 101 :: r, p⟩ =
      .ok (acc ++ canonList vs, ⟨r, p + (encList vs).length + 1⟩) := by
  intro n
  induction n using Nat.strong_induction_on with
  | _ n ih =>
  intro vs hlen hwf fuel hfuel acc r p
  cases vs with
  | nil =>
    rcases fuel with _ | f
    · omega
    have hstep : parse_list_go (f + 1) acc ⟨encList [] ++ 101 :: r, p⟩
        = .ok (acc, ⟨r, p + 1⟩) := by
      rw [show encList [] = [] from rfl, List.nil_append, parse_list_go,
        Token_delim_e]
      rfl
    rw [hstep, show canonList [] = [] from rfl,
      show encList [] = [] from rfl]
    simp
  | cons v vs' =>
    rw [BvalWFL] at hwf
    obtain ⟨hwv, hwvs⟩ := hwf
    rcases fuel with _ | f
    · omega
    have hlen1 : (encList (v :: vs')).length
        = (encV v).length + (encList vs').length := by
      rw [encList]
      simp
    have hvpos := encV_length_pos v
    have hlt : (encList vs').length < n := by omega
    have hf' : (encList vs').length + 1 ≤ f := by omega
    cases v with
    | int m =>
      rw [BvalWF] at hwv
      have hsplit : encList (Bval.int m :: vs') ++ 101 :: r
          = 105 :: (intDec m ++ 101 :: (encList vs' ++ 101 :: r)) := by
        rw [encList, encV]
        simp
      have hstep : parse_list_go (f + 1) acc
            ⟨105 :: (intDec m ++ 101 :: (encList vs' ++ 101 :: r)), p⟩
          = parse_list_go f (acc ++ [Bval.int m])
            ⟨encList vs' ++ 101 :: r, p + (intDec m).length + 2⟩ := by
        rw [parse_list_go, Token_int m hwv.1 hwv.2]
      rw [hsplit, hstep,
        ih (encList vs').length hlt vs' le_rfl hwvs f hf'
          (acc ++ [Bval.int m]) r (p + (intDec m).length + 2)]
      have h2 : acc ++ [Bval.int m] ++ canonList vs'
          = acc ++ canonList (Bval.int m :: vs') := by
        rw [canonList, canon]
        simp
      have h3 : p + (intDec m).length + 2 + (encList vs').length + 1
          = p + (encList (Bval.int m :: vs')).length + 1 := by
        have he : (encV (Bval.int m)).length = (intDec m).length + 2 := by
          rw [encV]
          simp
        omega
      rw [h2, h3]
    | str s =>
      rw [BvalWF] at hwv
      have hsplit : encList (Bval.str s :: vs') ++ 101 :: r
          = encStringB s ++ (encList vs' ++ 101 :: r) := by
        rw [encList, encV]
        simp
      have hstep : parse_list_go (f + 1) acc
            ⟨encStringB s ++ (encList vs' ++ 101 :: r), p⟩
          = parse_list_go f (acc ++ [Bval.str s])
            ⟨encList vs' ++ 101 :: r, p + (encStringB s).length⟩ := by
        rw [parse_list_go, Token_str s hwv.1]
      rw [hsplit, hstep,
        ih (encList vs').length hlt vs' le_rfl hwvs f hf'
          (acc ++ [Bval.str s]) r (p + (encStringB s).length)]
      have h2 : acc ++ [Bval.str s] ++ canonList vs'
          = acc ++ canonList (Bval.str s :: vs') := by
        rw [canonList, canon]
        simp
      have h3 : p + (encStringB s).length + (encList vs').length + 1
          = p + (encList (Bval.str s :: vs')).length + 1 := by
        have he : (encV (Bval.str s)).length = (encStringB s).length := rfl
        omega
      rw [h2, h3]
    | list us =>
      rw [BvalWF] at hwv
      have hsplit : encList (Bval.list us :: vs') ++ 101 :: r
          = 108 :: (encList us ++ 101 :: (encList vs' ++ 101 :: r)) := by
        rw [encList, encV]
        simp
      have hluslen : (encList us).length + 2 = (encV (Bval.list us)).length := by
        rw [encV]
        simp
      have hstep : parse_list_go (f + 1) acc
            ⟨108 :: (encList us ++ 101 :: (encList vs' ++ 101 :: r)), p⟩
          = (match parse_list_go f []
              ⟨encList us ++ 101 :: (encList vs' ++ 101 :: r), p + 1⟩ with
            | .error e => .error e
            | .ok (l', st'') => parse_list_go f (acc ++ [Bval.list l']) st'') := by
        rw [parse_list_go, Token_delim_l]
        rfl
      have hnested := ih (encList us).length (by omega) us le_rfl hwv f
        (by omega) [] (encList vs' ++ 101 :: r) (p + 1)
      rw [hsplit, hstep, hnested]
      simp only [List.nil_append]
      rw [ih (encList vs').length hlt vs' le_rfl hwvs f hf'
        (acc ++ [Bval.list (canonList us)]) r (p + 1 + (encList us).length + 1)]
      have h2 : acc ++ [Bval.list (canonList us)] ++ canonList vs'
          = acc ++ canonList (Bval.list us :: vs') := by
        rw [canonList, canon]
        simp
      have h3 : p + 1 + (encList us).length + 1 + (encList vs').length + 1
          = p + (encList (Bval.list us :: vs')).length + 1 := by
        omega
      rw [h2, h3]
    | dict ps =>
      rw [BvalWF] at hwv
      obtain ⟨hnd, hwfP⟩ := hwv
      have hbody : emitDict (mapFromList (encPairs ps))
            (List.insertionSort keyLe ((encPairs ps).map Prod.fst))
          = encList (interleave (sortedPairs ps)) := by
        rw [encPairs_fst,
          emitDict_body ps (List.insertionSort keyLe (ps.map Prod.fst))
            (fun k hk => (List.mem_insertionSort keyLe).mp hk)]
        rfl
      have hsplit : encList (Bval.dict ps :: vs') ++ 101 :: r
          = 100 :: (encList (interleave (sortedPairs ps)) ++ 101 ::
              (encList vs' ++ 101 :: r)) := by
        rw [encList, encV, hbody]
        simp
      have hdlen : (encList (interleave (sortedPairs ps))).length + 2
          = (encV (Bval.dict ps)).length := by
        rw [encV, hbody]
        simp
      have hstep : parse_list_go (f + 1) acc
            ⟨100 :: (encList (interleave (sortedPairs ps)) ++ 101 ::
              (encList vs' ++ 101 :: r)), p⟩
          = (match parse_list_go f []
              ⟨encList (interleave (sortedPairs ps)) ++ 101 ::
                (encList vs' ++ 101 :: r), p + 1⟩ with
            | .error e => .error e
            | .ok (l', st'') =>
              if l'.length % 2 ≠ 0 then .error (.oddDict st''.pos)
              else
                match dict_fold st''.pos [] l' with
                | .error e => .error e
                | .ok m => parse_list_go f (acc ++ [Bval.dict m]) st'') := by
        rw [parse_list_go, Token_delim_d]
        rfl
      have hwfI : BvalWFL (interleave (sortedPairs ps)) :=
        BvalWFL_interleave (sortedPairs ps) (sortedPairs_wf ps hnd hwfP)
      have hnested := ih (encList (interleave (sortedPairs ps))).length
        (by omega) (interleave (sortedPairs ps)) le_rfl hwfI f (by omega)
        [] (encList vs' ++ 101 :: r) (p + 1)
      rw [hsplit, hstep, hnested]
      simp only [List.nil_append]
      rw [canonList_interleave]
      have heven : ¬((interleave ((sortedPairs ps).map
          (fun p => (p.1, canon p.2)))).length % 2 ≠ 0) := by
        rw [interleave_length]
        omega
      rw [if_neg heven, dict_fold_interleave_nil]
      simp only []
      have hndk : (((sortedPairs ps).map (fun p => (p.1, canon p.2))).map
          Prod.fst).Nodup := by
        have h1 : ((sortedPairs ps).map (fun p => (p.1, canon p.2))).map Prod.fst
            = (sortedPairs ps).map Prod.fst := by
          simp
        rw [h1, sortedPairs_fst]
        exact (List.perm_insertionSort keyLe (ps.map Prod.fst)).nodup_iff.mpr hnd
      rw [mapFromList_nodup _ hndk]
      rw [ih (encList vs').length hlt vs' le_rfl hwvs f hf'
        (acc ++ [Bval.dict ((sortedPairs ps).map (fun p => (p.1, canon p.2)))])
        r (p + 1 + (encList (interleave (sortedPairs ps))).length + 1)]
      have h2 : acc ++ [Bval.dict ((sortedPairs ps).map
            (fun p => (p.1, canon p.2)))] ++ canonList vs'
          = acc ++ canonList (Bval.dict ps :: vs') := by
        rw [canonList, canon_dict_eq]
        simp
      have h3 : p + 1 + (encList (interleave (sortedPairs ps))).length + 1
            + (encList vs').length + 1
          = p + (encList (Bval.dict ps :: vs')).length + 1 := by
        omega
      rw [h2, h3]

theorem decoderDecode_enc (v : Bval) (h : BvalWF v) (fuel : Nat)
    (hfuel : (encV v).length + 1 ≤ fuel) :
    decoderDecode fuel ⟨encV v, 0⟩ = .ok (some (canon v)) := by
  cases v with
  | int m =>
    rw [BvalWF] at h
    rw [show encV (Bval.int m) = 105 :: (intDec m ++ 101 :: []) by
      rw [encV]; simp]
    rw [decoderDecode, Token_int m h.1 h.2]
    rfl
  | str s =>
    rw [BvalWF] at h
    rw [show encV (Bval.str s) = encStringB s ++ [] by simp [encV]]
    rw [decoderDecode, Token_str s h.1]
    rfl
  | list us =>
    rw [BvalWF] at h
    have hsplit : encV (Bval.list us) = 108 :: (encList us ++ 101 :: []) := by
      rw [encV]
      simp
    have hlen : (encV (Bval.list us)).length = (encList us).length + 2 := by
      rw [hsplit]
      simp
    have hloop := parse_enc_loop (encList us).length us le_rfl h fuel
      (by omega) [] [] 1
    have hstep : decoderDecode fuel ⟨108 :: (encList us ++ [101]), 0⟩
        = (match parse_list fuel ⟨encList us ++ [101], 0 + 1⟩ with
          | .error e => .error (.listWrap e)
          | .ok (l, _) => .ok (some (.list l))) := by
      rw [decoderDecode, Token_delim_l]
      rfl
    have hl : parse_list fuel ⟨encList us ++ [101], 0 + 1⟩
        = .ok ([] ++ canonList us, ⟨[], 1 + (encList us).length + 1⟩) := by
      rw [parse_list, show (0 : Nat) + 1 = 1 from rfl]
      exact hloop
    rw [hsplit, hstep, hl]
    rfl
  | dict ps =>
    rw [BvalWF] at h
    obtain ⟨hnd, hwfP⟩ := h
    have hbody : emitDict (mapFromList (encPairs ps))
          (List.insertionSort keyLe ((encPairs ps).map Prod.fst))
        = encList (interleave (sortedPairs ps)) := by
      rw [encPairs_fst,
        emitDict_body ps (List.insertionSort keyLe (ps.map Prod.fst))
          (fun k hk => (List.mem_insertionSort keyLe).mp hk)]
      rfl
    have hsplit : encV (Bval.dict ps)
        = 100 :: (encList (interleave (sortedPairs ps)) ++ 101 :: []) := by
      rw [encV, hbody]
      simp
    have hlen : (encV (Bval.dict ps)).length
        = (encList (interleave (sortedPairs ps))).length + 2 := by
      rw [hsplit]
      simp
    have hwfI : BvalWFL (interleave (sortedPairs ps)) :=
      BvalWFL_interleave (sortedPairs ps) (sortedPairs_wf ps hnd hwfP)
    have hloop := parse_enc_loop (encList (interleave (sortedPairs ps))).length
      (interleave (sortedPairs ps)) le_rfl hwfI fuel (by omega) [] [] 1
    have hstep : decoderDecode fuel
          ⟨100 :: (encList (interleave (sortedPairs ps)) ++ [101]), 0⟩
        = (match parse_dict fuel
            ⟨encList (interleave (sortedPairs ps)) ++ [101], 0 + 1⟩ with
          | .error e => .error (.dictWrap e)
          | .ok (d, _) => .ok (some (.dict d))) := by
      rw [decoderDecode, Token_delim_d]
      rfl
    have hpd : parse_dict fuel ⟨encList (interleave (sortedPairs ps)) ++ 101 :: [], 0 + 1⟩
        = .ok ((sortedPairs ps).map (fun p => (p.1, canon p.2)),
            ⟨[], 1 + (encList (interleave (sortedPairs ps))).length + 1⟩) := by
      rw [parse_dict, parse_list, show (0 : Nat) + 1 = 1 from rfl, hloop]
      simp only [List.nil_append]
      rw [canonList_interleave]
      have heven : ¬((interleave ((sortedPairs ps).map
          (fun p => (p.1, canon p.2)))).length % 2 ≠ 0) := by
        rw [interleave_length]
        omega
      rw [if_neg heven, dict_fold_interleave_nil]
      have hndk : (((sortedPairs ps).map (fun p => (p.1, canon p.2))).map
          Prod.fst).Nodup := by
        have h1 : ((sortedPairs ps).map (fun p => (p.1, canon p.2))).map Prod.fst
            = (sortedPairs ps).map Prod.fst := by
          simp
        rw [h1, sortedPairs_fst]
        exact (List.perm_insertionSort keyLe (ps.map Prod.fst)).nodup_iff.mpr hnd
      rw [mapFromList_nodup _ hndk]
    rw [hsplit, hstep, hpd, canon_dict_eq ps]

theorem DecodeBytes_enc (v : Bval) (h : BvalWF v) :
    DecodeBytes (encV v) = .ok (some (canon v)) := by
  rw [DecodeBytes, decoderDecode_enc v h ((encV v).length + 1) le_rfl]

/-! ### Canonical ordering helpers -/

theorem encV_dict_body (ps : List (List Nat × Bval)) :
    encV (.dict ps) = 100 :: encList (interleave (sortedPairs ps)) ++ [101] := by
  rw [encV, encPairs_fst,
    emitDict_body ps (List.insertionSort keyLe (ps.map Prod.fst))
      (fun k hk => (List.mem_insertionSort keyLe).mp hk)]
  rfl

theorem alookup_eq_some_of_mem_nodup {α : Type} (ps : List (List Nat × α))
    (hnd : (ps.map Prod.fst).Nodup) (k : List Nat) (v : α) (h : (k, v) ∈ ps) :
    alookup ps k = some v := by
  induction ps with
  | nil => simp at h
  | cons p ps ih =>
    obtain ⟨k0, v0⟩ := p
    simp only [List.map_cons, List.nodup_cons] at hnd
    rcases List.mem_cons.mp h with h1 | h2
    · injection h1 with hk hv
      subst hk
      subst hv
      simp [alookup]
    · have hk : k ≠ k0 := by
        intro he
        subst he
        exact hnd.1 (List.mem_map.mpr ⟨(k, v), h2, rfl⟩)
      rw [alookup, if_neg hk]
      exact ih hnd.2 h2

theorem alookup_perm_nodup {α : Type} (ps ps' : List (List Nat × α))
    (hperm : ps.Perm ps') (hnd : (ps.map Prod.fst).Nodup) (k : List Nat) :
    alookup ps k = alookup ps' k := by
  have hnd' : (ps'.map Prod.fst).Nodup := ((hperm.map Prod.fst).nodup_iff).mp hnd
  rcases hl : alookup ps k with _ | v
  · rcases hl' : alookup ps' k with _ | v'
    · rfl
    · have hmem := hperm.mem_iff.mpr (alookup_eq_some_mem ps' k v' hl')
      rw [alookup_eq_some_of_mem_nodup ps hnd k v' hmem] at hl
      simp at hl
  · have hmem := hperm.mem_iff.mp (alookup_eq_some_mem ps k v hl)
    rw [alookup_eq_some_of_mem_nodup ps' hnd' k v hmem]

theorem sortedPairs_perm_eq (ps ps' : List (List Nat × Bval))
    (hperm : ps.Perm ps') (hnd : (ps.map Prod.fst).Nodup) :
    sortedPairs ps = sortedPairs ps' := by
  unfold sortedPairs
  rw [insertionSort_eq_of_perm _ _ (hperm.map Prod.fst)]
  refine List.map_congr_left ?_
  intro k _
  rw [mapFromList_nodup ps hnd,
    mapFromList_nodup ps' (((hperm.map Prod.fst).nodup_iff).mp hnd),
    alookup_perm_nodup ps ps' hperm hnd k]

/-! ### Wider-encoder helpers -/

theorem mem_mapInsert {α : Type} (q : List Nat × α) (k : List Nat) (v : α)
    (m : List (List Nat × α)) (h : q ∈ mapInsert k v m) :
    q ∈ m ∨ q = (k, v) := by
  induction m with
  | nil => simpa [mapInsert] using h
  | cons p m ih =>
    obtain ⟨k0, v0⟩ := p
    by_cases hk : k = k0
    · subst hk
      rw [mapInsert, if_pos rfl] at h
      rcases List.mem_cons.mp h with h1 | h2
      · right; exact h1
      · left; simp [h2]
    · rw [mapInsert, if_neg hk] at h
      rcases List.mem_cons.mp h with h1 | h2
      · left; simp [h1]
      · rcases ih h2 with h3 | h3
        · left; simp [h3]
        · right; exact h3

theorem mem_mapFromList {α : Type} (ps : List (List Nat × α))
    (q : List Nat × α) (h : q ∈ mapFromList ps) : q ∈ ps := by
  unfold mapFromList at h
  suffices hgen : ∀ m : List (List Nat × α),
      q ∈ ps.foldl (fun m kv => mapInsert kv.1 kv.2 m) m → q ∈ m ∨ q ∈ ps by
    rcases hgen [] h with h1 | h1
    · simp at h1
    · exact h1
  clear h
  induction ps with
  | nil => intro m hm; left; simpa using hm
  | cons p ps ih =>
    intro m hm
    obtain ⟨k, v⟩ := p
    rcases ih (mapInsert k v m) hm with h1 | h1
    · rcases mem_mapInsert q k v m h1 with h2 | h2
      · left; exact h2
      · right; simp [h2]
    · right; simp [h1]

theorem keys_mem_mapFromList {α : Type} (ps : List (List Nat × α))
    (k : List Nat) (h : k ∈ ps.map Prod.fst) :
    k ∈ (mapFromList ps).map Prod.fst := by
  rw [← alookup_isSome_iff, alookup_mapFromList, alookup_isSome_iff]
  simpa using h

theorem encGoDict_ok (nm : List (List Nat × Except EncErr (List Nat)))
    (hok : ∀ q ∈ nm, ∃ bs, q.2 = .ok bs) :
    ∀ ks : List (List Nat), (∀ k ∈ ks, k ∈ nm.map Prod.fst) →
    ∃ out, encGoDict nm ks = .ok out := by
  intro ks
  induction ks with
  | nil => intro _; exact ⟨[], rfl⟩
  | cons k ks ih =>
    intro h
    obtain ⟨e, he⟩ := Option.isSome_iff_exists.mp
      ((alookup_isSome_iff nm k).mpr (h k (by simp)))
    obtain ⟨bs, hbs⟩ := hok (k, e) (alookup_eq_some_mem nm k e he)
    obtain ⟨rest, hrest⟩ := ih (fun x hx => h x (by simp [hx]))
    refine ⟨encStringB k ++ bs ++ rest, ?_⟩
    rw [encGoDict, he]
    simp only [Option.getD_some]
    rw [show e = Except.ok bs from hbs, hrest]

theorem goType_ne_slice : ∀ t : GoType, t ≠ GoType.tslice t := by
  intro t
  induction t with
  | tstring => simp
  | tint64 => simp
  | tiface => simp
  | tslice e ih =>
    intro h
    injection h with h'
    exact ih h'

theorem encGo_gmap (ps : List (GoKey × GoVal)) :
    encGo (.gmap ps) =
      (match encGoDict (mapFromList (encGoPairs ps))
          (List.insertionSort keyLe ((encGoPairs ps).map Prod.fst)) with
        | .error e => .error e
        | .ok body => .ok (100 :: body ++ [101])) := by
  rw [encGo]

/-! ### Claim theorems -/

/-- Claim C1: for every value representable in the Generic Value model
(byte strings, int64 integers, lists of such values, string-keyed
dictionaries of such values with unique keys), decoding the bytes
produced by encoding the value yields the value back, up to canonical
reordering of dictionary keys: `canon` rewrites every dictionary into
ascending key order and leaves strings, integers and list order
untouched. -/
theorem claim_C1_round_trip (v : Bval) (h : BvalWF v) :
    DecodeBytes (encV v) = .ok (some (canon v)) :=
  DecodeBytes_enc v h

theorem claim_C1_round_trip_witness :
    BvalWF (Bval.dict [([102, 111, 111], .int 42),
      ([98, 97, 114], .str [115, 112, 97, 109])]) ∧
    DecodeBytes (encV (Bval.dict [([102, 111, 111], .int 42),
        ([98, 97, 114], .str [115, 112, 97, 109])]))
      = .ok (some (canon (Bval.dict [([102, 111, 111], .int 42),
        ([98, 97, 114], .str [115, 112, 97, 109])]))) := by
  have hwf : BvalWF (Bval.dict [([102, 111, 111], .int 42),
      ([98, 97, 114], .str [115, 112, 97, 109])]) :=
    ⟨by decide, ⟨by unfold strWF; decide, by unfold BvalWF; decide,
      ⟨by unfold strWF; decide, by unfold BvalWF strWF; decide, trivial⟩⟩⟩
  exact ⟨hwf, claim_C1_round_trip _ hwf⟩

/-- Claim C2, as stated, is false: when the byte stream is exhausted (or
a scanner-level syntax error occurs) while collecting the children of a
list, `parse_list`'s loop condition `err == nil` simply ends the loop and
`return l, nil` returns the partial list with no error.  Concretely,
decoding the unterminated list `l1:a` succeeds and yields the one-element
list `["a"]`. -/
theorem claim_C2_cex :
    DecodeBytes [108, 49, 58, 97] = .ok (some (.list [.str [97]])) := rfl

/-- Claim C2 amended: when `Token` fails (end of input or a syntax error)
while `parse_list` is collecting children, the collector stops and
returns the children collected so far with no error, exactly as if an
`End` token had been read; only errors from nested collections and the
dictionary structure checks propagate. -/
theorem claim_C2_swallow (fuel : Nat) (acc : List Bval) (st st' : DecSt)
    (e : DErr) (h : Token st = (.error e, st')) :
    parse_list_go (fuel + 1) acc st = .ok (acc, st') := by
  rw [parse_list_go, h]

theorem claim_C2_swallow_witness :
    Token ⟨[], 5⟩ = (.error .eof, ⟨[], 5⟩) ∧
    parse_list_go 1 [Bval.str [97]] ⟨[], 5⟩ = .ok ([Bval.str [97]], ⟨[], 5⟩) :=
  ⟨rfl, claim_C2_swallow 0 [Bval.str [97]] ⟨[], 5⟩ ⟨[], 5⟩ .eof rfl⟩

/-- Claim C3, as stated, is false: decoding `i3` through the exported
`Decode` yields a nil value with no error, not an error.  `get_int` does
return `io.EOF` when the input ends before the `e` terminator, but the
top-level `Decode` converts `io.EOF` to a nil error. -/
theorem claim_C3_cex : DecodeBytes [105, 51] = .ok none := rfl

/-- Claim C3 amended: decoding `i3` never yields a (truncated) integer
value: the `Decoder.Decode` method fails with the end-of-input error from
`get_int`, and the exported `Decode` converts that `io.EOF` into a nil
result with no error. -/
theorem claim_C3_eof_masked :
    decoderDecode 3 ⟨[105, 51], 0⟩ = .error .eof ∧
    DecodeBytes [105, 51] = .ok none :=
  ⟨rfl, rfl⟩

/-- Claim C4: for every string-keyed mapping with distinct keys, the
encoder emits the dictionary as the key/value pairs sorted ascending
lexicographically by raw key bytes (`sortedPairs`), the emitted key
sequence is sorted under the byte-wise order `keyLe`, and the output does
not depend on the order in which the mapping was populated (any
permutation of the association list encodes identically). -/
theorem claim_C4_canonical_order (ps ps' : List (List Nat × Bval))
    (hnd : (ps.map Prod.fst).Nodup) (hperm : ps.Perm ps') :
    encV (.dict ps) = encV (.dict ps') ∧
    encV (.dict ps) = 100 :: encList (interleave (sortedPairs ps)) ++ [101] ∧
    List.Sorted keyLe ((sortedPairs ps).map Prod.fst) := by
  refine ⟨?_, encV_dict_body ps, ?_⟩
  · rw [encV_dict_body ps, encV_dict_body ps',
      sortedPairs_perm_eq ps ps' hperm hnd]
  · rw [sortedPairs_fst]
    exact List.sorted_insertionSort keyLe (ps.map Prod.fst)

theorem claim_C4_witness :
    (([([102, 111, 111], Bval.str [97]), ([98, 97, 114], Bval.int 1)]).map
      Prod.fst).Nodup ∧
    ([([102, 111, 111], Bval.str [97]), ([98, 97, 114], Bval.int 1)]).Perm
      [([98, 97, 114], Bval.int 1), ([102, 111, 111], Bval.str [97])] ∧
    (encV (.dict [([102, 111, 111], Bval.str [97]), ([98, 97, 114], Bval.int 1)])
        = encV (.dict [([98, 97, 114], Bval.int 1),
            ([102, 111, 111], Bval.str [97])]) ∧
      encV (.dict [([102, 111, 111], Bval.str [97]), ([98, 97, 114], Bval.int 1)])
        = 100 :: encList (interleave (sortedPairs
            [([102, 111, 111], Bval.str [97]), ([98, 97, 114], Bval.int 1)])) ++ [101] ∧
      List.Sorted keyLe ((sortedPairs [([102, 111, 111], Bval.str [97]),
        ([98, 97, 114], Bval.int 1)]).map Prod.fst)) ∧
    encV (.dict [([102, 111, 111], Bval.str [97]), ([98, 97, 114], Bval.int 1)])
      = [100, 51, 58, 98, 97, 114, 105, 49, 101, 51, 58, 102, 111, 111,
          49, 58, 97, 101] := by
  have hnd : (([([102, 111, 111], Bval.str [97]),
      ([98, 97, 114], Bval.int 1)]).map Prod.fst).Nodup := by decide
  have hperm := List.Perm.swap ([98, 97, 114], Bval.int 1)
    ([102, 111, 111], Bval.str [97]) ([] : List (List Nat × Bval))
  exact ⟨hnd, hperm, claim_C4_canonical_order _ _ hnd hperm, rfl⟩

/-- Claim C5 is right about the intent but the code is wrong: coercing an
empty source list into a slice destination of element shape `T` never
produces an empty typed slice — it always panics.  The `in_length == 0`
branch calls `reflect.MakeSlice(out_elem_type, 0, 0)` with the element
type instead of the slice type: for a non-slice `T`, `MakeSlice` panics
immediately; for a slice `T`, the created value has type `T` and the
following `Set` into the `[]T` destination panics on the type mismatch.
(The nonempty branch uses `reflect.MakeSlice(out_type, ...)`, showing the
intended call.) -/
theorem claim_C5_empty_slice_panics (coerceElem : GoType → Bval → CRes RVal)
    (elemTy : GoType) :
    set_val_coerce_slice coerceElem (.tslice elemTy) (.list []) = .panik := by
  cases elemTy with
  | tstring => rfl
  | tint64 => rfl
  | tiface => rfl
  | tslice e =>
    have hc : ¬(typeOfR (RVal.rslice e []) = GoType.tslice (GoType.tslice e)) := by
      rw [typeOfR]
      intro h
      injection h with h'
      exact goType_ne_slice e h'
    show reflectSet (GoType.tslice (GoType.tslice e)) (RVal.rslice e []) = CRes.panik
    rw [reflectSet, if_neg hc]

/-- Claim C6: coercing a Generic Value integer source (an int64) into a
text-string destination succeeds and yields the decimal formatting of the
integer (`strconv.FormatInt(x, 10)`); reading the produced digits back as
a decimal int64 yields the original value. -/
theorem claim_C6_int_to_string (n : Int) (h1 : -(2 ^ 63) ≤ n)
    (h2 : n < 2 ^ 63) :
    set_val_coerce_to_string (.int n) = .ok (intDec n) ∧
    parseInt64 (intDec n) = .ok n :=
  ⟨rfl, parseInt64_intDec n h1 h2⟩

theorem claim_C6_witness :
    (-(2 ^ 63) : Int) ≤ 100000 ∧ (100000 : Int) < 2 ^ 63 ∧
    (set_val_coerce_to_string (.int 100000) = .ok (intDec 100000) ∧
      parseInt64 (intDec 100000) = .ok 100000) ∧
    set_val_coerce_to_string (.int 100000) = .ok [49, 48, 48, 48, 48, 48] :=
  ⟨by decide, by decide,
    claim_C6_int_to_string 100000 (by decide) (by decide), rfl⟩

/-- Claim C7: whenever the flat element sequence collected for a
dictionary body has odd length, `parse_dict` fails with the
odd-number-of-elements error carrying the cursor offset reached after the
collection, and no dictionary is returned. -/
theorem claim_C7_odd_dict (fuel : Nat) (st st' : DecSt) (l : List Bval)
    (hp : parse_list fuel st = .ok (l, st')) (hodd : l.length % 2 = 1) :
    parse_dict fuel st = .error (.oddDict st'.pos) := by
  have hstep : parse_dict fuel st =
      (if l.length % 2 ≠ 0 then .error (.oddDict st'.pos)
        else match dict_fold st'.pos [] l with
          | .error e => .error e
          | .ok m => .ok (m, st')) := by
    rw [parse_dict, hp]
  rw [hstep, if_pos (by omega)]

theorem claim_C7_odd_dict_witness :
    (parse_list 18 ⟨[51, 58, 98, 97, 114, 52, 58, 115, 112, 97, 109,
        51, 58, 102, 111, 111], 1⟩
      = .ok ([Bval.str [98, 97, 114], Bval.str [115, 112, 97, 109],
          Bval.str [102, 111, 111]], ⟨[], 17⟩)) ∧
    ([Bval.str [98, 97, 114], Bval.str [115, 112, 97, 109],
        Bval.str [102, 111, 111]].length % 2 = 1) ∧
    parse_dict 18 ⟨[51, 58, 98, 97, 114, 52, 58, 115, 112, 97, 109,
        51, 58, 102, 111, 111], 1⟩ = .error (.oddDict 17) ∧
    DecodeBytes [100, 51, 58, 98, 97, 114, 52, 58, 115, 112, 97, 109,
        51, 58, 102, 111, 111] = .error (.dictWrap (.oddDict 17)) :=
  ⟨rfl, rfl, claim_C7_odd_dict 18
    ⟨[51, 58, 98, 97, 114, 52, 58, 115, 112, 97, 109, 51, 58, 102, 111, 111], 1⟩
    ⟨[], 17⟩
    [Bval.str [98, 97, 114], Bval.str [115, 112, 97, 109],
      Bval.str [102, 111, 111]]
    rfl rfl, rfl⟩

/-- Claim C8: a dictionary body whose flat sequence pairs up into
key/value pairs (all keys strings) decodes successfully even when a key
occurs more than once; the resulting mapping binds every key to the value
of its last occurrence (looking the key up in the built map equals the
first match in the reversed pair sequence), earlier occurrences being
silently overwritten. -/
theorem claim_C8_last_wins (fuel : Nat) (st st' : DecSt)
    (qs : List (List Nat × Bval))
    (hp : parse_list fuel st = .ok (interleave qs, st')) :
    parse_dict fuel st = .ok (mapFromList qs, st') ∧
    ∀ k, alookup (mapFromList qs) k = alookup qs.reverse k := by
  constructor
  · have hstep : parse_dict fuel st =
        (if (interleave qs).length % 2 ≠ 0 then .error (.oddDict st'.pos)
          else match dict_fold st'.pos [] (interleave qs) with
            | .error e => .error e
            | .ok m => .ok (m, st')) := by
      rw [parse_dict, hp]
    rw [hstep, if_neg (by rw [interleave_length]; omega),
      dict_fold_interleave_nil]
  · exact fun k => alookup_mapFromList qs k

theorem claim_C8_last_wins_witness :
    (parse_list 15 ⟨[49, 58, 97, 105, 49, 101, 49, 58, 97, 105, 50, 101, 101], 1⟩
      = .ok (interleave [([97], Bval.int 1), ([97], Bval.int 2)], ⟨[], 14⟩)) ∧
    parse_dict 15 ⟨[49, 58, 97, 105, 49, 101, 49, 58, 97, 105, 50, 101, 101], 1⟩
      = .ok (mapFromList [([97], Bval.int 1), ([97], Bval.int 2)], ⟨[], 14⟩) ∧
    alookup (mapFromList [([97], Bval.int 1), ([97], Bval.int 2)]) [97]
      = some (Bval.int 2) ∧
    DecodeBytes [100, 49, 58, 97, 105, 49, 101, 49, 58, 97, 105, 50, 101, 101]
      = .ok (some (.dict [([97], Bval.int 2)])) := by
  have h := claim_C8_last_wins 15
    ⟨[49, 58, 97, 105, 49, 101, 49, 58, 97, 105, 50, 101, 101], 1⟩
    ⟨[], 14⟩ [([97], Bval.int 1), ([97], Bval.int 2)] rfl
  exact ⟨rfl, h.1, rfl, rfl⟩

/-- Claim C9: end-of-input on the very first byte of a top-level decode
(the empty input) yields a nil result with no error: the decoder method
reports `io.EOF` and the exported `Decode` converts exactly that error to
a nil one, while malformed data (an unexpected first byte such as `!`)
still surfaces as an error. -/
theorem claim_C9_empty_input :
    DecodeBytes [] = .ok none ∧
    decoderDecode 1 ⟨[], 0⟩ = .error .eof ∧
    DecodeBytes [33] = .error (.unexpectedByte 33 1) :=
  ⟨rfl, rfl, rfl⟩

/-- Claim C10: `encode_map` never rejects a mapping for its key type.
Every key is first stringified with `fmt.Sprintf("%s", k)` (`goRender`)
and that string is used as the dictionary key, so a map encodes exactly
as the same map re-keyed by the rendered strings; and whenever every
value encodes successfully the whole map encodes successfully — the
`invalid data type` error can only arise from a value, never from a
key. -/
theorem claim_C10_nonstring_keys (ps : List (GoKey × GoVal)) :
    encGo (.gmap ps)
      = encGo (.gmap (ps.map (fun p => (GoKey.kstr (goRender p.1), p.2)))) ∧
    ((∀ p ∈ ps, ∃ bs, encGo p.2 = .ok bs) →
      ∃ out, encGo (.gmap ps) = .ok out) := by
  have hpairs : encGoPairs (ps.map (fun p => (GoKey.kstr (goRender p.1), p.2)))
      = encGoPairs ps := by
    rw [encGoPairs_eq_map, encGoPairs_eq_map, List.map_map]
    rfl
  constructor
  · rw [encGo_gmap, encGo_gmap, hpairs]
  · intro hv
    rw [encGo_gmap]
    have hok : ∀ q ∈ mapFromList (encGoPairs ps), ∃ bs, q.2 = .ok bs := by
      intro q hq
      have hq' := mem_mapFromList _ q hq
      rw [encGoPairs_eq_map] at hq'
      obtain ⟨p, hp, rfl⟩ := List.mem_map.mp hq'
      exact hv p hp
    have hin : ∀ k ∈ List.insertionSort keyLe ((encGoPairs ps).map Prod.fst),
        k ∈ (mapFromList (encGoPairs ps)).map Prod.fst := by
      intro k hk
      exact keys_mem_mapFromList _ k ((List.mem_insertionSort keyLe).mp hk)
    obtain ⟨out, hout⟩ := encGoDict_ok _ hok _ hin
    exact ⟨100 :: out ++ [101], by rw [hout]⟩

theorem claim_C10_witness :
    (encGo (.gmap [(GoKey.kint 42, GoVal.gstr [120])])
      = encGo (.gmap ([(GoKey.kint 42, GoVal.gstr [120])].map
          (fun p => (GoKey.kstr (goRender p.1), p.2))))) ∧
    ∃ out, encGo (.gmap [(GoKey.kint 42, GoVal.gstr [120])]) = .ok out := by
  have h := claim_C10_nonstring_keys [(GoKey.kint 42, GoVal.gstr [120])]
  refine ⟨h.1, h.2 ?_⟩
  intro p hp
  simp only [List.mem_singleton] at hp
  subst hp
  exact ⟨encStringB [120], rfl⟩

end Benc
